import Mathlib

/-!
# Verification of the Reversi rules engine and AI (docs/script.ts)

Shallow embedding of the `ReversiBoard` and `ReversiAI` classes.

Modelling conventions:
* The mutable `number[][]` grid becomes an immutable `List (List Int)`
  (row-major, `board[y][x]`); every mutating method returns a new board.
* JavaScript array indexing that can yield `undefined` is modelled with
  `Option Int` (`cell?`); a `===` comparison against `undefined` is `false`,
  which `Option.some` equality captures exactly (`none ≠ some v`).
* The one place the TypeScript can actually throw — `this.board[y][x]` in
  `isValidMove` when `this.board[y]` is `undefined` — is modelled with
  `Except Unit`, error being the thrown `TypeError`.
* The `while` walks along a direction are modelled with explicit fuel
  `size + 1`; a walk stays inside the `size × size` bounds and moves by a
  nonzero unit step each iteration, so it can never take more than `size`
  steps and the fuel is never exhausted on the boards the code reaches.
-/

deriving instance DecidableEq for Except

namespace Reversi

/-- The `ReversiBoard` state: grid dimension, row-major grid (`board[y][x]`,
`1` = black, `-1` = white, `0` = empty) and whose turn it is. -/
structure ReversiBoard where
  size : Nat
  board : List (List Int)
  currentPlayer : Int
deriving DecidableEq, Repr

/-- The 8 compass directions, in source order. -/
def directions : List (Int × Int) :=
  [(1, 0), (-1, 0), (0, 1), (0, -1), (1, 1), (1, -1), (-1, 1), (-1, -1)]

/-- JavaScript array read `l[i]`: `none` models `undefined` (negative or
too-large index). -/
def listGet? {α : Type} (l : List α) (i : Int) : Option α :=
  if i < 0 then none else l.get? i.toNat

/-- Grid read `board[y][x]`; `none` models `undefined`. -/
def cellGet? (b : ReversiBoard) (x y : Int) : Option Int :=
  (listGet? b.board y).bind fun row => listGet? row x

/-- `inBounds(x, y)`. -/
def inBounds (b : ReversiBoard) (x y : Int) : Bool :=
  0 ≤ x && x < (b.size : Int) && 0 ≤ y && y < (b.size : Int)

/-- The `while` walk of `isValidMove`: starting at `(nx, ny)`, walk along
`(dx, dy)` over opponent stones, then report whether the walk stopped on a
stone of `player` with at least one opponent stone passed (`foundOpponent`). -/
def checkDir (b : ReversiBoard) (player dx dy : Int) :
    Int → Int → Bool → Nat → Bool
  | _, _, _, 0 => false
  | nx, ny, foundOpponent, fuel + 1 =>
    if inBounds b nx ny && (cellGet? b nx ny == some (-player)) then
      checkDir b player dx dy (nx + dx) (ny + dy) true fuel
    else
      foundOpponent && inBounds b nx ny && (cellGet? b nx ny == some player)

/-- `isValidMove(x, y, player)`.  `Except.error` models the `TypeError`
thrown by `this.board[y][x]` when `y` is outside the grid (`this.board[y]`
is `undefined`); when only `x` is outside, `this.board[y][x]` is `undefined`
and the `!== 0` occupied-check returns `false`. -/
def isValidMove (b : ReversiBoard) (x y player : Int) : Except Unit Bool :=
  match listGet? b.board y with
  | none => Except.error ()
  | some row =>
    match listGet? row x with
    | none => Except.ok false
    | some v =>
      if v ≠ 0 then Except.ok false
      else Except.ok (directions.any fun d =>
        checkDir b player d.1 d.2 (x + d.1) (y + d.2) false (b.size + 1))

/-- `getValidMoves(player)`: row-major scan keeping the coordinates that pass
`isValidMove`. -/
def getValidMoves (b : ReversiBoard) (player : Int) : List (Int × Int) :=
  ((List.range b.size).map fun y =>
    (List.range b.size).filterMap fun x =>
      if isValidMove b (x : Int) (y : Int) player = Except.ok true then
        some ((x : Int), (y : Int))
      else none).flatten

/-- Grid write `this.board[y][x] = v` (no-op off the grid; the engine only
writes to validated in-bounds cells). -/
def setCell (b : ReversiBoard) (x y v : Int) : ReversiBoard :=
  { b with board :=
      match listGet? b.board y with
      | some row => if 0 ≤ x then b.board.set y.toNat (row.set x.toNat v) else b.board
      | none => b.board }

/-- The `while` walk of `applyMove`: collect the run of opponent stones from
`(nx, ny)` along `(dx, dy)` together with the coordinate where the walk
stopped. -/
def collectFlips (b : ReversiBoard) (player dx dy : Int) :
    Int → Int → Nat → List (Int × Int) × Int × Int
  | nx, ny, 0 => ([], nx, ny)
  | nx, ny, fuel + 1 =>
    if inBounds b nx ny && (cellGet? b nx ny == some (-player)) then
      let r := collectFlips b player dx dy (nx + dx) (ny + dy) fuel
      ((nx, ny) :: r.1, r.2)
    else ([], nx, ny)

/-- One direction of `applyMove`'s flipping loop: collect the opponent run and
flip it if the walk stopped on a stone of `player`. -/
def flipDir (b : ReversiBoard) (player x y dx dy : Int) : ReversiBoard :=
  match collectFlips b player dx dy (x + dx) (y + dy) (b.size + 1) with
  | (flips, nx, ny) =>
    if inBounds b nx ny && (cellGet? b nx ny == some player) then
      flips.foldl (fun acc q => setCell acc q.1 q.2 player) b
    else b

/-- `switchPlayer()`. -/
def switchPlayer (b : ReversiBoard) : ReversiBoard :=
  { b with currentPlayer := -b.currentPlayer }

/-- `applyMove(x, y, player)`: the boolean result paired with the new board
state (the TypeScript mutates in place and returns the boolean). -/
def applyMove (b : ReversiBoard) (x y player : Int) :
    Except Unit (Bool × ReversiBoard) :=
  match isValidMove b x y player with
  | Except.error e => Except.error e
  | Except.ok false => Except.ok (false, b)
  | Except.ok true =>
    let b1 := setCell b x y player
    let b2 := directions.foldl (fun acc d => flipDir acc player x y d.1 d.2) b1
    Except.ok (true, switchPlayer b2)

/-- `isGameOver()`. -/
def isGameOver (b : ReversiBoard) : Bool :=
  (getValidMoves b 1).length == 0 && (getValidMoves b (-1)).length == 0

/-- `countStones()`: `(black, white)`. -/
def countStones (b : ReversiBoard) : Nat × Nat :=
  b.board.foldl (fun acc row =>
    row.foldl (fun a c =>
      (if c = 1 then a.1 + 1 else a.1, if c = -1 then a.2 + 1 else a.2)) acc)
    (0, 0)

/-- `clone()`: a deep copy of the grid (`map` of per-row copies, the identity
on immutable list values) plus the turn flag; `size` is passed to the
constructor whose freshly initialised grid is then overwritten wholesale. -/
def clone (b : ReversiBoard) : ReversiBoard :=
  { size := b.size
    board := b.board.map fun row => row
    currentPlayer := b.currentPlayer }

/- ### The `ReversiAI` class -/

/-- `tmp.applyMove(x, y, player)` as used by the AI: the mutated clone.  A
rejected move leaves the clone unchanged, exactly as in the source; the
`Except.error` branch is unreachable for the in-range coordinates the AI
supplies (`getValidMoves` only returns coordinates with `isValidMove` ok). -/
def applyB (b : ReversiBoard) (x y player : Int) : ReversiBoard :=
  match applyMove b x y player with
  | Except.ok r => r.2
  | Except.error _ => b

/-- The stone-differential term of `evaluate` (also the inline score of
`chooseGreedy`): mover's stones minus opponent's stones. -/
def stoneDiff (board : ReversiBoard) (player : Int) : Int :=
  let st := countStones board
  if player = 1 then (st.1 : Int) - (st.2 : Int) else (st.2 : Int) - (st.1 : Int)

/-- The body of `evaluate`'s corner loop: `cornerScore += 5` when the corner
holds `player`, then `cornerScore -= 5` when it holds the opponent. -/
def cornerStep (board : ReversiBoard) (player acc : Int) (c : Int × Int) : Int :=
  let acc1 := if cellGet? board c.1 c.2 == some player then acc + 5 else acc
  if cellGet? board c.1 c.2 == some (-player) then acc1 - 5 else acc1

/-- The corner term of `evaluate`: `+5` per corner held by `player`, `-5` per
corner held by the opponent. -/
def cornerScore (board : ReversiBoard) (player : Int) : Int :=
  let corners : List (Int × Int) :=
    [(0, 0), (0, (board.size : Int) - 1),
     ((board.size : Int) - 1, 0), ((board.size : Int) - 1, (board.size : Int) - 1)]
  corners.foldl (cornerStep board player) 0

/-- `evaluate(board, player) = stoneDiff * 1 + cornerScore`. -/
def evaluate (board : ReversiBoard) (player : Int) : Int :=
  stoneDiff board player * 1 + cornerScore board player

/-- `score > bestScore` where `bestScore` starts as `-Infinity` (`none`). -/
def ltScore : Option Int → Int → Bool
  | none, _ => true
  | some v, s => v < s

/-- The greedy per-move score of `chooseGreedy` (raw stone differential on the
clone after the move). -/
def greedyScore (board : ReversiBoard) (player : Int) (m : Int × Int) : Int :=
  let st := countStones (applyB board m.1 m.2 player)
  if player = 1 then (st.1 : Int) - (st.2 : Int) else (st.2 : Int) - (st.1 : Int)

/-- `chooseGreedy(board, player, moves)`: stable left-to-right scan with a
strict `>` comparison against a best score starting at `-Infinity`;
`bestMove` starts as `moves[0]` (`none` models the `undefined` of an empty
list, which the caller rules out). -/
def chooseGreedy (board : ReversiBoard) (player : Int)
    (moves : List (Int × Int)) : Option (Int × Int) :=
  (moves.foldl (fun acc m =>
    let score := greedyScore board player m
    if ltScore acc.2 score then (some m, some score) else acc)
    (moves.head?, (none : Option Int))).1

/-- `maxEval` of the maximizing phase: `-Infinity` folded with strict `>`
updates, i.e. the maximum of a nonempty score list (the empty case is
unreachable behind the `moves.length === 0` test). -/
def listMax : List Int → Int
  | [] => 0
  | h :: t => t.foldl max h

/-- `minEval` of the minimizing phase, dually. -/
def listMin : List Int → Int
  | [] => 0
  | h :: t => t.foldl min h

/-- `minimax(board, depth, currentPlayer, maximizingPlayer)`.  `depth` is a
`Nat`: the source is only ever called with nonnegative depths (`maxDepth - 1`
with the shipped `maxDepth = 3`, then counted down to the `depth === 0` base
case). -/
def minimax (board : ReversiBoard) (depth : Nat)
    (currentPlayer maximizingPlayer : Int) : Int :=
  if h : depth = 0 ∨ isGameOver board = true then evaluate board maximizingPlayer
  else
    let moves := getValidMoves board currentPlayer
    if moves.isEmpty then
      minimax board (depth - 1) (-currentPlayer) maximizingPlayer
    else
      let scores := moves.map fun m =>
        minimax (applyB board m.1 m.2 currentPlayer) (depth - 1)
          (-currentPlayer) maximizingPlayer
      if currentPlayer = maximizingPlayer then listMax scores else listMin scores
termination_by depth
decreasing_by
  all_goals
    simp only [not_or] at h
    omega

/-- The minimax per-move score of `chooseMinimax`. -/
def minimaxScore (board : ReversiBoard) (player : Int) (maxDepth : Nat)
    (m : Int × Int) : Int :=
  minimax (applyB board m.1 m.2 player) (maxDepth - 1) (-player) player

/-- `chooseMinimax(board, player, moves)` with the AI's `maxDepth`: same
stable scan as `chooseGreedy`, scoring each move by a depth `maxDepth - 1`
minimax from the opponent's reply onward. -/
def chooseMinimax (board : ReversiBoard) (player : Int) (maxDepth : Nat)
    (moves : List (Int × Int)) : Option (Int × Int) :=
  (moves.foldl (fun acc m =>
    let score := minimaxScore board player maxDepth m
    if ltScore acc.2 score then (some m, some score) else acc)
    (moves.head?, (none : Option Int))).1

/- ### Concrete boards used as witnesses -/

/-- The canonical 4×4 starting position (the constructor's `init()` for
`size = 4`): diagonal split of the four centre cells, black (`1`) to move. -/
def b4 : ReversiBoard :=
  ⟨4, [[0, 0, 0, 0], [0, -1, 1, 0], [0, 1, -1, 0], [0, 0, 0, 0]], 1⟩

/-- The board after black plays `(1, 0)` on `b4`: the stone at `(1, 1)` is
flipped and the turn passes to white. -/
def b4after : ReversiBoard :=
  ⟨4, [[0, 1, 0, 0], [0, 1, 1, 0], [0, 1, -1, 0], [0, 0, 0, 0]], -1⟩

/-- `b4` with `currentPlayer` set to white, even though black is about to
move — exercises `applyMove` when the `player` argument disagrees with the
stored turn. -/
def c1Board : ReversiBoard :=
  ⟨4, [[0, 0, 0, 0], [0, -1, 1, 0], [0, 1, -1, 0], [0, 0, 0, 0]], -1⟩

/-- A 3×3 board where black (`1`) has the single legal move `(2, 0)` while
white (`-1`) has none: one side is blocked but the game is not over. -/
def b3 : ReversiBoard :=
  ⟨3, [[1, -1, 0], [0, 0, 0], [0, 0, 0]], 1⟩

/-- Apply a whole sequence of `(x, y, player)` moves front to back, each via
`applyMove` on the current board (rejected moves leave the board unchanged,
as in the source). -/
def applySeq (ms : List (Int × Int × Int)) (b : ReversiBoard) : ReversiBoard :=
  ms.foldl (fun acc m => applyB acc m.1 m.2.1 m.2.2) b

/- ### Counting helpers (proof vocabulary for `countStones`) -/

/-- Number of cells equal to `v` in one row. -/
def rowCount (v : Int) : List Int → Nat
  | [] => 0
  | c :: t => (if c = v then 1 else 0) + rowCount v t

/-- Number of cells equal to `v` on the whole grid. -/
def countOf (v : Int) (b : ReversiBoard) : Nat :=
  (b.board.map (rowCount v)).sum

/- ### Spec-side legality predicate (for the refinement claim) -/

/-- The cell at `(x, y)` is on the grid and belongs to the opponent of
`player`. -/
def OppAt (b : ReversiBoard) (player x y : Int) : Prop :=
  inBounds b x y = true ∧ cellGet? b x y = some (-player)

/-- The cell at `(x, y)` is on the grid and belongs to `player`. -/
def OwnAt (b : ReversiBoard) (player x y : Int) : Prop :=
  inBounds b x y = true ∧ cellGet? b x y = some player

/-- Written from the spec's words, to be compared with `isValidMove`: the
target cell is empty, and in some compass direction a run of `n ≥ 1`
contiguous opponent stones starting immediately next to `(x, y)` is followed
by a stone owned by `player` (on the grid, not empty). -/
def LegalSpec (b : ReversiBoard) (x y player : Int) : Prop :=
  cellGet? b x y = some 0 ∧ ∃ d ∈ directions, ∃ n : Nat, 1 ≤ n ∧
    (∀ j : Nat, 1 ≤ j → j ≤ n →
      OppAt b player (x + (j : Int) * d.1) (y + (j : Int) * d.2)) ∧
    OwnAt b player (x + ((n : Int) + 1) * d.1) (y + ((n : Int) + 1) * d.2)

/- ### Turn-flag bookkeeping -/

lemma currentPlayer_setCell (b : ReversiBoard) (x y v : Int) :
    (setCell b x y v).currentPlayer = b.currentPlayer := rfl

lemma currentPlayer_switchPlayer (b : ReversiBoard) :
    (switchPlayer b).currentPlayer = -b.currentPlayer := rfl

lemma currentPlayer_foldlSet (p : Int) :
    ∀ (fs : List (Int × Int)) (B : ReversiBoard),
      (fs.foldl (fun acc q => setCell acc q.1 q.2 p) B).currentPlayer =
        B.currentPlayer := by
  intro fs
  induction fs with
  | nil => intro B; rfl
  | cons q t ih => intro B; simpa [List.foldl_cons] using ih (setCell B q.1 q.2 p)

lemma currentPlayer_flipDir (B : ReversiBoard) (p x y dx dy : Int) :
    (flipDir B p x y dx dy).currentPlayer = B.currentPlayer := by
  unfold flipDir
  split
  split
  · exact currentPlayer_foldlSet p _ B
  · rfl

lemma currentPlayer_dirFold (p x y : Int) :
    ∀ (ds : List (Int × Int)) (B : ReversiBoard),
      (ds.foldl (fun acc d => flipDir acc p x y d.1 d.2) B).currentPlayer =
        B.currentPlayer := by
  intro ds
  induction ds with
  | nil => intro B; rfl
  | cons d t ih =>
    intro B
    simpa [List.foldl_cons, currentPlayer_flipDir] using
      (ih (flipDir B p x y d.1 d.2)).trans (currentPlayer_flipDir B p x y d.1 d.2)

/-- C1 (amended): an accepted `applyMove` negates the stored `currentPlayer`
(`switchPlayer` negates, it does not assign `-player`); in particular the new
turn is the opponent of `p` exactly when `currentPlayer` was `p` beforehand. -/
theorem applyMove_negates_turn (b b' : ReversiBoard) (x y p : Int)
    (h : applyMove b x y p = Except.ok (true, b')) :
    b'.currentPlayer = -b.currentPlayer ∧
      (b.currentPlayer = p → b'.currentPlayer = -p) := by
  unfold applyMove at h
  cases hv : isValidMove b x y p with
  | error e => rw [hv] at h; exact absurd h (by simp)
  | ok v =>
    rw [hv] at h
    cases v with
    | false => simp at h
    | true =>
      simp only [Except.ok.injEq, Prod.mk.injEq, true_and] at h
      have hcp : b'.currentPlayer = -b.currentPlayer := by
        rw [← h, currentPlayer_switchPlayer, currentPlayer_dirFold,
          currentPlayer_setCell]
      exact ⟨hcp, fun hb => by rw [hcp, hb]⟩

/-- C1, witness: on `b4` (black to move, black plays) the accepted move
`(1, 0)` leaves the opponent of black to move. -/
theorem applyMove_negates_turn_witness :
    applyMove b4 1 0 1 = Except.ok (true, b4after) ∧
      b4after.currentPlayer = -b4.currentPlayer :=
  ⟨by decide, (applyMove_negates_turn b4 b4after 1 0 1 (by decide)).1⟩

/-- C1, counterexample to the claim as stated: on `c1Board` white is recorded
as `currentPlayer`, black's move `(1, 0)` is accepted, and afterwards
`currentPlayer` is `1`, not the opponent `-1` of the mover. -/
theorem applyMove_negates_turn_counterexample :
    Except.map (fun r => (r.1, r.2.currentPlayer)) (applyMove c1Board 1 0 1) =
      Except.ok (true, (1 : Int)) ∧ (1 : Int) ≠ -1 := by decide

/-- C2: at the failing input `(x, y) = (0, size)` the occupied-check
`this.board[y][x] !== 0` dereferences the `undefined` row `this.board[4]` and
throws (modelled by `Except.error`), instead of returning `false` behind a
bounds check; an out-of-range `x` with in-range `y` only accidentally returns
`false` because `undefined !== 0`. -/
theorem isValidMove_out_of_bounds_fault :
    isValidMove b4 0 4 1 = Except.error () ∧
      isValidMove b4 4 0 1 = Except.ok false := by decide

/-- C3: a move that `isValidMove` rejects (in range or not) makes `applyMove`
report `false` and return the very same board — no cell and no turn flag is
touched. -/
theorem applyMove_rejection_atomic (b : ReversiBoard) (x y p : Int)
    (hin : inBounds b x y = true) (h : isValidMove b x y p = Except.ok false) :
    applyMove b x y p = Except.ok (false, b) := by
  unfold applyMove
  rw [h]

/-- C3, witness: `(0, 0)` is in range on `b4` but illegal for black; the board
comes back untouched. -/
theorem applyMove_rejection_atomic_witness :
    inBounds b4 0 0 = true ∧ isValidMove b4 0 0 1 = Except.ok false ∧
      applyMove b4 0 0 1 = Except.ok (false, b4) :=
  ⟨by decide, by decide, applyMove_rejection_atomic b4 0 0 1 (by decide) (by decide)⟩

/-- C6: a forced pass — positive depth, game not over, no legal move for the
mover — recurses on the same board with `depth - 1` and the opposite mover. -/
theorem minimax_forced_pass (b : ReversiBoard) (d : Nat) (m M : Int)
    (hd : 0 < d) (hterm : isGameOver b = false)
    (hpass : getValidMoves b m = []) :
    minimax b d m M = minimax b (d - 1) (-m) M := by
  conv_lhs => rw [minimax]
  rw [dif_neg (by rw [hterm]; simp; omega)]
  simp [hpass]

/-- C6, witness: on `b3` white has no move while black has one, so
`minimax b3 1 (-1) M` equals `minimax b3 0 1 M`. -/
theorem minimax_forced_pass_witness :
    0 < 1 ∧ isGameOver b3 = false ∧ getValidMoves b3 (-1) = [] ∧
      minimax b3 1 (-1) 1 = minimax b3 0 1 1 :=
  ⟨Nat.one_pos, by decide, by decide,
    minimax_forced_pass b3 1 (-1) 1 Nat.one_pos (by decide) (by decide)⟩

/-- C8: `isGameOver` holds exactly when neither colour has a legal move. -/
theorem isGameOver_iff_no_moves (b : ReversiBoard) :
    isGameOver b = true ↔ getValidMoves b 1 = [] ∧ getValidMoves b (-1) = [] := by
  simp [isGameOver, List.length_eq_zero]

/-- `clone` reproduces the board value exactly. -/
lemma clone_eq (b : ReversiBoard) : clone b = b := by
  cases b
  simp [clone]

/-- C9: running one and the same move sequence on a board and on its clone
produces identical grids and identical turn flags. -/
theorem clone_roundtrip (b : ReversiBoard) (ms : List (Int × Int × Int)) :
    (applySeq ms (clone b)).board = (applySeq ms b).board ∧
      (applySeq ms (clone b)).currentPlayer = (applySeq ms b).currentPlayer := by
  rw [clone_eq]
  exact ⟨rfl, rfl⟩

/-- One corner-loop step negates when the perspective and the accumulator are
negated. -/
lemma cornerStep_neg (b : ReversiBoard) (p a : Int) (c : Int × Int) :
    cornerStep b (-p) (-a) c = -cornerStep b p a c := by
  unfold cornerStep
  simp only [neg_neg]
  split_ifs <;> ring

/-- The corner loop is antisymmetric in the perspective player, for any
player encoding and any starting accumulator. -/
lemma cornerFold_antisymm (b : ReversiBoard) (p : Int) :
    ∀ (cs : List (Int × Int)) (a : Int),
      cs.foldl (cornerStep b p) a = -(cs.foldl (cornerStep b (-p)) (-a)) := by
  intro cs
  induction cs with
  | nil => intro a; simp
  | cons c t ih =>
    intro a
    simp only [List.foldl_cons]
    rw [ih (cornerStep b p a c), ← cornerStep_neg b p a c]

/-- The corner term is antisymmetric in the perspective player, for any
player encoding. -/
lemma cornerScore_antisymm (b : ReversiBoard) (p : Int) :
    cornerScore b p = -cornerScore b (-p) := by
  simp only [cornerScore]
  rw [cornerFold_antisymm b p]
  norm_num

/-- C10: the evaluator is antisymmetric in the perspective player — both the
stone differential and the per-corner `±5` bonus negate when the perspective
flips. -/
theorem evaluate_antisymm (b : ReversiBoard) (p : Int)
    (hp : p = 1 ∨ p = -1) : evaluate b p = -evaluate b (-p) := by
  have hs : stoneDiff b p = -stoneDiff b (-p) := by
    rcases hp with h | h <;> subst h <;> simp [stoneDiff] <;> ring
  unfold evaluate
  rw [hs, cornerScore_antisymm]
  ring

/-- C10, witness: antisymmetry evaluated on the 4×4 start for black. -/
theorem evaluate_antisymm_witness :
    ((1 : Int) = 1 ∨ (1 : Int) = -1) ∧ evaluate b4 1 = -evaluate b4 (-1) :=
  ⟨Or.inl rfl, evaluate_antisymm b4 1 (Or.inl rfl)⟩

/- ### Stone counting -/

lemma rowCount_set_add (a v : Int) :
    ∀ (l : List Int) (i : Nat) (w : Int), l.get? i = some w →
      rowCount v (l.set i a) + (if w = v then 1 else 0)
        = rowCount v l + (if a = v then 1 else 0) := by
  intro l
  induction l with
  | nil => intro i w h; simp at h
  | cons x t ih =>
    intro i w h
    cases i with
    | zero =>
      simp only [List.get?_cons_zero, Option.some.injEq] at h
      subst h
      simp only [List.set_cons_zero, rowCount]
      split_ifs <;> omega
    | succ j =>
      simp only [List.get?_cons_succ] at h
      simp only [List.set_cons_succ, rowCount]
      have := ih j w h
      omega

lemma sum_map_rowCount_set (v : Int) (r' : List Int) :
    ∀ (L : List (List Int)) (i : Nat) (r : List Int), L.get? i = some r →
      ((L.set i r').map (rowCount v)).sum + rowCount v r
        = (L.map (rowCount v)).sum + rowCount v r' := by
  intro L
  induction L with
  | nil => intro i r h; simp at h
  | cons x t ih =>
    intro i r h
    cases i with
    | zero =>
      simp only [List.get?_cons_zero, Option.some.injEq] at h
      subst h
      simp only [List.set_cons_zero, List.map_cons, List.sum_cons]
      omega
    | succ j =>
      simp only [List.get?_cons_succ] at h
      simp only [List.set_cons_succ, List.map_cons, List.sum_cons]
      have := ih j r h
      omega

/-- When the written cell is absent, `setCell` is the identity. -/
lemma setCell_none (b : ReversiBoard) (x y a : Int)
    (h : listGet? b.board y = none) : setCell b x y a = b := by
  unfold setCell
  rw [h]

/-- When the written cell's row is present and `x` is nonnegative, `setCell`
replaces exactly row `y` and cell `x` of it. -/
lemma setCell_board (b : ReversiBoard) (x y a : Int) (row : List Int)
    (hrow : listGet? b.board y = some row) (hx0 : 0 ≤ x) :
    (setCell b x y a).board = b.board.set y.toNat (row.set x.toNat a) := by
  unfold setCell
  rw [hrow]
  dsimp only
  rw [if_pos hx0]

/-- When `x` is negative, `setCell` is the identity. -/
lemma setCell_negx (b : ReversiBoard) (x y a : Int) (row : List Int)
    (hrow : listGet? b.board y = some row) (hx0 : ¬0 ≤ x) :
    setCell b x y a = b := by
  unfold setCell
  rw [hrow]
  dsimp only
  rw [if_neg hx0]

/-- Decompose a successful `cellGet?` into its row and cell reads. -/
lemma cellGet?_decomp (b : ReversiBoard) (x y w : Int)
    (h : cellGet? b x y = some w) :
    ¬y < 0 ∧ ¬x < 0 ∧ ∃ row, b.board.get? y.toNat = some row ∧
      row.get? x.toNat = some w := by
  unfold cellGet? listGet? at h
  by_cases hy : y < 0
  · rw [if_pos hy] at h; simp at h
  rw [if_neg hy] at h
  cases hrow : b.board.get? y.toNat with
  | none => rw [hrow] at h; simp at h
  | some row =>
    rw [hrow] at h
    simp only [Option.some_bind] at h
    by_cases hx : x < 0
    · rw [if_pos hx] at h; simp at h
    rw [if_neg hx] at h
    exact ⟨hy, hx, row, rfl, h⟩

/-- Overwriting a present cell adjusts each colour count by the obvious
amount (stated additively to stay in `Nat`). -/
lemma countOf_setCell_add (b : ReversiBoard) (x y a w : Int)
    (h : cellGet? b x y = some w) (v : Int) :
    countOf v (setCell b x y a) + (if w = v then 1 else 0)
      = countOf v b + (if a = v then 1 else 0) := by
  obtain ⟨hy, hx, row, hrow, hcell⟩ := cellGet?_decomp b x y w h
  have hrow' : listGet? b.board y = some row := by
    unfold listGet?
    rw [if_neg hy, hrow]
  have hboard := setCell_board b x y a row hrow' (by omega)
  unfold countOf
  rw [hboard]
  have houter := sum_map_rowCount_set v (row.set x.toNat a) b.board y.toNat row hrow
  have hinner := rowCount_set_add a v row x.toNat w hcell
  omega

/-- Writes at other coordinates do not change a cell. -/
lemma cellGet?_setCell_other (b : ReversiBoard) (x y v a c : Int)
    (h : ¬(a = x ∧ c = y)) :
    cellGet? (setCell b x y v) a c = cellGet? b a c := by
  cases hrow : listGet? b.board y with
  | none => rw [setCell_none b x y v hrow]
  | some row =>
    by_cases hx0 : 0 ≤ x
    · have hboard := setCell_board b x y v row hrow hx0
      have hy0 : ¬y < 0 := by
        intro hy0
        unfold listGet? at hrow
        rw [if_pos hy0] at hrow
        simp at hrow
      have hynat : b.board.get? y.toNat = some row := by
        unfold listGet? at hrow
        rwa [if_neg hy0] at hrow
      unfold cellGet? listGet?
      rw [hboard]
      by_cases hc0 : c < 0
      · simp [if_pos hc0]
      simp only [if_neg hc0]
      by_cases hcy : c = y
      · subst hcy
        have hlen : c.toNat < b.board.length := by
          rcases List.get?_eq_some.mp hynat with ⟨hl, -⟩
          exact hl
        rw [List.get?_set_eq_of_lt _ hlen, hynat]
        simp only [Option.some_bind]
        have hax : a ≠ x := fun hax => h ⟨hax, rfl⟩
        by_cases ha0 : a < 0
        · simp [if_pos ha0]
        simp only [if_neg ha0]
        rw [List.get?_set_ne _ _ (by omega : x.toNat ≠ a.toNat)]
      · rw [List.get?_set_ne _ _ (by omega : y.toNat ≠ c.toNat)]
    · rw [setCell_negx b x y v row hrow hx0]

/-- Every collected flip coordinate holds an opponent stone and lies on the
scanned ray. -/
lemma collectFlips_mem (b : ReversiBoard) (p dx dy : Int) :
    ∀ (fuel : Nat) (nx ny : Int) (q : Int × Int),
      q ∈ (collectFlips b p dx dy nx ny fuel).1 →
        cellGet? b q.1 q.2 = some (-p) ∧
          ∃ j : Nat, q.1 = nx + (j : Int) * dx ∧ q.2 = ny + (j : Int) * dy := by
  intro fuel
  induction fuel with
  | zero => intro nx ny q hq; simp [collectFlips] at hq
  | succ f ih =>
    intro nx ny q hq
    rw [collectFlips] at hq
    by_cases hcond : (inBounds b nx ny && (cellGet? b nx ny == some (-p))) = true
    · rw [if_pos hcond] at hq
      simp only [List.mem_cons] at hq
      rcases hq with hq | hq
      · subst hq
        refine ⟨?_, 0, by ring, by ring⟩
        have := (Bool.and_eq_true _ _).mp hcond
        exact beq_iff_eq.mp this.2
      · obtain ⟨hcell, j, hj1, hj2⟩ := ih (nx + dx) (ny + dy) q hq
        refine ⟨hcell, j + 1, ?_, ?_⟩
        · rw [hj1]; push_cast; ring
        · rw [hj2]; push_cast; ring
    · rw [if_neg hcond] at hq
      simp at hq

/-- Along a genuine compass direction the collected flips are pairwise
distinct coordinates. -/
lemma collectFlips_pairwise (b : ReversiBoard) (p dx dy : Int)
    (hd : dx = 1 ∨ dx = -1 ∨ dy = 1 ∨ dy = -1) :
    ∀ (fuel : Nat) (nx ny : Int),
      (collectFlips b p dx dy nx ny fuel).1.Pairwise (fun q r => q ≠ r) := by
  intro fuel
  induction fuel with
  | zero => intro nx ny; simp [collectFlips]
  | succ f ih =>
    intro nx ny
    rw [collectFlips]
    by_cases hcond : (inBounds b nx ny && (cellGet? b nx ny == some (-p))) = true
    · rw [if_pos hcond]
      simp only [List.pairwise_cons]
      refine ⟨?_, ih (nx + dx) (ny + dy)⟩
      intro q hq heq
      obtain ⟨-, j, hj1, hj2⟩ := collectFlips_mem b p dx dy f (nx + dx) (ny + dy) q hq
      have h1 : q.1 = nx := by rw [← heq]
      have h2 : q.2 = ny := by rw [← heq]
      rw [h1] at hj1
      rw [h2] at hj2
      rcases hd with h | h | h | h <;> subst h <;> omega
    · rw [if_neg hcond]
      simp

/-- Flipping a list of pairwise-distinct opponent cells to `p` raises `p`'s
count by the list length and lowers the opponent's by the same amount. -/
lemma countOf_flipFold (p : Int) (hp : p = 1 ∨ p = -1) :
    ∀ (fs : List (Int × Int)) (B : ReversiBoard),
      (∀ q ∈ fs, cellGet? B q.1 q.2 = some (-p)) →
      fs.Pairwise (fun q r => q ≠ r) →
      countOf p (fs.foldl (fun acc q => setCell acc q.1 q.2 p) B)
          = countOf p B + fs.length ∧
        countOf (-p) (fs.foldl (fun acc q => setCell acc q.1 q.2 p) B)
            + fs.length
          = countOf (-p) B := by
  intro fs
  induction fs with
  | nil => intro B _ _; simp
  | cons q t ih =>
    intro B hall hpw
    simp only [List.foldl_cons, List.length_cons]
    have hq : cellGet? B q.1 q.2 = some (-p) := hall q (List.mem_cons_self q t)
    have hne : -p ≠ p := by rcases hp with h | h <;> subst h <;> decide
    have h1 := countOf_setCell_add B q.1 q.2 p (-p) hq p
    rw [if_neg hne, if_pos rfl] at h1
    have h2 := countOf_setCell_add B q.1 q.2 p (-p) hq (-p)
    rw [if_pos rfl, if_neg (fun hc => hne hc.symm)] at h2
    simp only [List.pairwise_cons] at hpw
    have hall' : ∀ r ∈ t, cellGet? (setCell B q.1 q.2 p) r.1 r.2 = some (-p) := by
      intro r hr
      have hqr : ¬(r.1 = q.1 ∧ r.2 = q.2) := by
        intro hc
        exact hpw.1 r hr (Prod.ext hc.1.symm hc.2.symm)
      rw [cellGet?_setCell_other B q.1 q.2 p r.1 r.2 hqr]
      exact hall r (List.mem_cons_of_mem q hr)
    have := ih (setCell B q.1 q.2 p) hall' hpw.2
    omega

/-- One direction of the flipping loop never lowers the mover's count and
preserves the combined stone total. -/
lemma flipDir_counts (p x y dx dy : Int) (hp : p = 1 ∨ p = -1)
    (hd : dx = 1 ∨ dx = -1 ∨ dy = 1 ∨ dy = -1) (B : ReversiBoard) :
    countOf p B ≤ countOf p (flipDir B p x y dx dy) ∧
      countOf p (flipDir B p x y dx dy) + countOf (-p) (flipDir B p x y dx dy)
        = countOf p B + countOf (-p) B := by
  unfold flipDir
  split
  rename_i flips nx ny heq
  split
  · have hflips : flips = (collectFlips B p dx dy (x + dx) (y + dy) (B.size + 1)).1 := by
      rw [heq]
    have hall : ∀ q ∈ flips, cellGet? B q.1 q.2 = some (-p) := by
      intro q hq
      rw [hflips] at hq
      exact (collectFlips_mem B p dx dy _ _ _ q hq).1
    have hpw : flips.Pairwise (fun q r => q ≠ r) := by
      rw [hflips]
      exact collectFlips_pairwise B p dx dy hd _ _ _
    have := countOf_flipFold p hp flips B hall hpw
    omega
  · exact ⟨le_refl _, rfl⟩

/-- The whole 8-direction flipping loop never lowers the mover's count and
preserves the combined stone total. -/
lemma dirFold_counts (p x y : Int) (hp : p = 1 ∨ p = -1) :
    ∀ (ds : List (Int × Int)),
      (∀ d ∈ ds, d.1 = 1 ∨ d.1 = -1 ∨ d.2 = 1 ∨ d.2 = -1) →
      ∀ B : ReversiBoard,
        countOf p B
            ≤ countOf p (ds.foldl (fun acc d => flipDir acc p x y d.1 d.2) B) ∧
          countOf p (ds.foldl (fun acc d => flipDir acc p x y d.1 d.2) B)
              + countOf (-p) (ds.foldl (fun acc d => flipDir acc p x y d.1 d.2) B)
            = countOf p B + countOf (-p) B := by
  intro ds
  induction ds with
  | nil => intro _ B; exact ⟨le_refl _, rfl⟩
  | cons d t ih =>
    intro hall B
    simp only [List.foldl_cons]
    have hstep := flipDir_counts p x y d.1 d.2 hp (hall d (List.mem_cons_self d t)) B
    have := ih (fun e he => hall e (List.mem_cons_of_mem d he)) (flipDir B p x y d.1 d.2)
    omega

/-- An accepted move targets an empty cell. -/
lemma isValidMove_empty_cell (b : ReversiBoard) (x y p : Int)
    (h : isValidMove b x y p = Except.ok true) :
    cellGet? b x y = some 0 := by
  unfold isValidMove at h
  split at h
  · exact absurd h (by simp)
  rename_i row hy
  split at h
  · simp at h
  rename_i v hx
  split at h
  · simp at h
  rename_i hv
  push_neg at hv
  subst hv
  unfold cellGet?
  rw [hy]
  simpa using hx

lemma countStones_fold_row :
    ∀ (row : List Int) (a : Nat × Nat),
      row.foldl (fun a c =>
        (if c = 1 then a.1 + 1 else a.1, if c = -1 then a.2 + 1 else a.2)) a
        = (a.1 + rowCount 1 row, a.2 + rowCount (-1) row) := by
  intro row
  induction row with
  | nil => intro a; simp [rowCount]
  | cons c t ih =>
    intro a
    simp only [List.foldl_cons, rowCount, ih]
    refine Prod.ext ?_ ?_ <;> simp only [] <;> split_ifs <;> omega

lemma countStones_fold :
    ∀ (L : List (List Int)) (a : Nat × Nat),
      L.foldl (fun acc row =>
        row.foldl (fun a c =>
          (if c = 1 then a.1 + 1 else a.1, if c = -1 then a.2 + 1 else a.2)) acc) a
        = (a.1 + (L.map (rowCount 1)).sum, a.2 + (L.map (rowCount (-1))).sum) := by
  intro L
  induction L with
  | nil => intro a; simp
  | cons r t ih =>
    intro a
    simp only [List.foldl_cons, List.map_cons, List.sum_cons]
    rw [countStones_fold_row r a, ih (a.1 + rowCount 1 r, a.2 + rowCount (-1) r)]
    refine Prod.ext ?_ ?_ <;> simp <;> omega

/-- `countStones` is the pair of per-colour cell counts. -/
lemma countStones_eq (b : ReversiBoard) :
    countStones b = (countOf 1 b, countOf (-1) b) := by
  unfold countStones countOf
  rw [countStones_fold]
  simp

/-- C5: an accepted move strictly increases the mover's stone count and
increases the total number of stones by exactly one (flips only convert
ownership). -/
theorem applyMove_counts (b b' : ReversiBoard) (x y p : Int)
    (hp : p = 1 ∨ p = -1) (h : applyMove b x y p = Except.ok (true, b')) :
    (if p = 1 then (countStones b).1 else (countStones b).2)
        < (if p = 1 then (countStones b').1 else (countStones b').2) ∧
      (countStones b').1 + (countStones b').2
        = (countStones b).1 + (countStones b).2 + 1 := by
  unfold applyMove at h
  cases hv : isValidMove b x y p with
  | error e => rw [hv] at h; exact absurd h (by simp)
  | ok v =>
    rw [hv] at h
    cases v with
    | false => simp at h
    | true =>
      simp only [Except.ok.injEq, Prod.mk.injEq, true_and] at h
      have hcell : cellGet? b x y = some 0 := isValidMove_empty_cell b x y p hv
      have hp0 : (0 : Int) ≠ p := by rcases hp with hq | hq <;> subst hq <;> decide
      have hp0' : (0 : Int) ≠ -p := by rcases hp with hq | hq <;> subst hq <;> decide
      have h1 := countOf_setCell_add b x y p 0 hcell p
      rw [if_neg hp0, if_pos rfl] at h1
      have hpne : p ≠ -p := by rcases hp with hq | hq <;> subst hq <;> decide
      have h2 := countOf_setCell_add b x y p 0 hcell (-p)
      rw [if_neg hp0', if_neg hpne] at h2
      have hdirs : ∀ d ∈ directions, d.1 = 1 ∨ d.1 = -1 ∨ d.2 = 1 ∨ d.2 = -1 := by
        decide
      have hfold := dirFold_counts p x y hp directions hdirs (setCell b x y p)
      have hb' : ∀ v : Int, countOf v b' = countOf v
          (directions.foldl (fun acc d => flipDir acc p x y d.1 d.2)
            (setCell b x y p)) := by
        intro v
        rw [← h]
        rfl
      have e1 := hb' 1
      have e2 := hb' (-1)
      rw [countStones_eq b, countStones_eq b']
      rcases hp with hq | hq <;> subst hq <;>
        norm_num at h1 h2 hfold e1 e2 ⊢ <;> omega

/-- C5, witness: black's accepted opening move `(1, 0)` on the 4×4 start. -/
theorem applyMove_counts_witness :
    applyMove b4 1 0 1 = Except.ok (true, b4after) ∧
      (if (1 : Int) = 1 then (countStones b4).1 else (countStones b4).2)
          < (if (1 : Int) = 1 then (countStones b4after).1 else (countStones b4after).2) ∧
        (countStones b4after).1 + (countStones b4after).2
          = (countStones b4).1 + (countStones b4).2 + 1 :=
  ⟨by decide, applyMove_counts b4 b4after 1 0 1 (Or.inl rfl) (by decide)⟩

/- ### Characterisation of `isValidMove` against the spec's wording -/

lemma dir_shape : ∀ d ∈ directions, d.1 = 1 ∨ d.1 = -1 ∨ d.2 = 1 ∨ d.2 = -1 := by
  decide

/-- The directional `while` walk succeeds exactly when some run of `k`
in-bounds opponent stones from the start of the walk (at least one, unless an
opponent stone was already seen) ends on an in-bounds stone of `p`, the run
fitting inside the available fuel. -/
lemma checkDir_iff (b : ReversiBoard) (p dx dy : Int) (hp : p ≠ 0) :
    ∀ (fuel : Nat) (nx ny : Int) (found : Bool),
      checkDir b p dx dy nx ny found fuel = true ↔
        ∃ k : Nat, (found = true ∨ 1 ≤ k) ∧ k + 1 ≤ fuel ∧
          (∀ j : Nat, j < k →
            OppAt b p (nx + (j : Int) * dx) (ny + (j : Int) * dy)) ∧
          OwnAt b p (nx + (k : Int) * dx) (ny + (k : Int) * dy) := by
  intro fuel
  induction fuel with
  | zero =>
    intro nx ny found
    rw [checkDir]
    constructor
    · intro h; cases h
    · rintro ⟨k, -, hk, -, -⟩; omega
  | succ f ih =>
    intro nx ny found
    rw [checkDir]
    by_cases hstep : (inBounds b nx ny && (cellGet? b nx ny == some (-p))) = true
    · rw [if_pos hstep]
      have hOpp : OppAt b p nx ny := by
        rw [Bool.and_eq_true, beq_iff_eq] at hstep
        exact ⟨hstep.1, hstep.2⟩
      rw [ih (nx + dx) (ny + dy) true]
      constructor
      · rintro ⟨k, -, hk, hopp, hown⟩
        refine ⟨k + 1, Or.inr (by omega), by omega, ?_, ?_⟩
        · intro j hj
          cases j with
          | zero => simpa using hOpp
          | succ i =>
            have hbase := hopp i (by omega)
            have e1 : nx + dx + (i : Int) * dx = nx + ((i + 1 : Nat) : Int) * dx := by
              push_cast; ring
            have e2 : ny + dy + (i : Int) * dy = ny + ((i + 1 : Nat) : Int) * dy := by
              push_cast; ring
            rw [e1, e2] at hbase
            exact hbase
        · have e1 : nx + dx + (k : Int) * dx = nx + ((k + 1 : Nat) : Int) * dx := by
            push_cast; ring
          have e2 : ny + dy + (k : Int) * dy = ny + ((k + 1 : Nat) : Int) * dy := by
            push_cast; ring
          rw [e1, e2] at hown
          exact hown
      · rintro ⟨k, hfound, hk, hopp, hown⟩
        cases k with
        | zero =>
          exfalso
          have h1 : cellGet? b nx ny = some p := by simpa using hown.2
          have h2 : cellGet? b nx ny = some (-p) := hOpp.2
          rw [h1] at h2
          have hpp : p = -p := by simpa using h2
          omega
        | succ k' =>
          refine ⟨k', Or.inl rfl, by omega, ?_, ?_⟩
          · intro j hj
            have hbase := hopp (j + 1) (by omega)
            have e1 : nx + ((j + 1 : Nat) : Int) * dx = nx + dx + (j : Int) * dx := by
              push_cast; ring
            have e2 : ny + ((j + 1 : Nat) : Int) * dy = ny + dy + (j : Int) * dy := by
              push_cast; ring
            rw [e1, e2] at hbase
            exact hbase
          · have e1 : nx + ((k' + 1 : Nat) : Int) * dx = nx + dx + (k' : Int) * dx := by
              push_cast; ring
            have e2 : ny + ((k' + 1 : Nat) : Int) * dy = ny + dy + (k' : Int) * dy := by
              push_cast; ring
            rw [e1, e2] at hown
            exact hown
    · rw [if_neg hstep]
      constructor
      · intro hres
        rw [Bool.and_eq_true, Bool.and_eq_true, beq_iff_eq] at hres
        refine ⟨0, Or.inl hres.1.1, by omega, by intro j hj; omega, ?_, ?_⟩
        · simpa using hres.1.2
        · simpa using hres.2
      · rintro ⟨k, hfound, hk, hopp, hown⟩
        have hk0 : k = 0 := by
          by_contra hk0
          have hbase := hopp 0 (by omega)
          apply hstep
          rw [Bool.and_eq_true, beq_iff_eq]
          refine ⟨?_, ?_⟩
          · simpa using hbase.1
          · simpa using hbase.2
        subst hk0
        have hf : found = true := by
          rcases hfound with hfd | hfd
          · exact hfd
          · omega
        rw [hf]
        rw [Bool.and_eq_true, Bool.and_eq_true, beq_iff_eq]
        refine ⟨⟨rfl, ?_⟩, ?_⟩
        · simpa using hown.1
        · simpa using hown.2

/-- C4: for the real players and an in-range target, `isValidMove` agrees
exactly with the spec's description of legality (`LegalSpec`): empty target
cell plus, in some direction, a nonempty contiguous run of opponent stones
immediately adjacent, terminated by a stone of the mover. -/
theorem isValidMove_iff_legalSpec (b : ReversiBoard) (x y p : Int)
    (hp : p = 1 ∨ p = -1) (hin : inBounds b x y = true) :
    isValidMove b x y p = Except.ok true ↔ LegalSpec b x y p := by
  have hp0 : p ≠ 0 := by rcases hp with h | h <;> subst h <;> decide
  constructor
  · intro h
    have hcell : cellGet? b x y = some 0 := isValidMove_empty_cell b x y p h
    have hany : (directions.any fun d =>
        checkDir b p d.1 d.2 (x + d.1) (y + d.2) false (b.size + 1)) = true := by
      unfold isValidMove at h
      split at h
      · simp at h
      split at h
      · simp at h
      split at h
      · simp at h
      · simpa using h
    rw [List.any_eq_true] at hany
    obtain ⟨d, hd, hchk⟩ := hany
    rw [checkDir_iff b p d.1 d.2 hp0 (b.size + 1) (x + d.1) (y + d.2) false] at hchk
    obtain ⟨k, hfound, hk, hopp, hown⟩ := hchk
    have hk1 : 1 ≤ k := by
      rcases hfound with hcontra | hgood
      · exact absurd hcontra (by simp)
      · exact hgood
    refine ⟨hcell, d, hd, k, hk1, ?_, ?_⟩
    · intro j h1j hjk
      have hbase := hopp (j - 1) (by omega)
      have e1 : x + d.1 + ((j - 1 : Nat) : Int) * d.1 = x + (j : Int) * d.1 := by
        rw [Nat.cast_sub h1j]; push_cast; ring
      have e2 : y + d.2 + ((j - 1 : Nat) : Int) * d.2 = y + (j : Int) * d.2 := by
        rw [Nat.cast_sub h1j]; push_cast; ring
      rw [e1, e2] at hbase
      exact hbase
    · have e1 : x + d.1 + (k : Int) * d.1 = x + ((k : Int) + 1) * d.1 := by ring
      have e2 : y + d.2 + (k : Int) * d.2 = y + ((k : Int) + 1) * d.2 := by ring
      rw [e1, e2] at hown
      exact hown
  · rintro ⟨hcell, d, hd, n, hn1, hopp, hown⟩
    obtain ⟨hy0, hx0, row, hynat, hxnat⟩ := cellGet?_decomp b x y 0 hcell
    have hy' : listGet? b.board y = some row := by
      unfold listGet?; rw [if_neg hy0, hynat]
    have hx' : listGet? row x = some 0 := by
      unfold listGet?; rw [if_neg hx0, hxnat]
    unfold isValidMove
    rw [hy']
    dsimp only
    rw [hx']
    dsimp only
    rw [if_neg (by simp : ¬(0 : Int) ≠ 0)]
    simp only [Except.ok.injEq]
    rw [List.any_eq_true]
    refine ⟨d, hd, ?_⟩
    rw [checkDir_iff b p d.1 d.2 hp0 (b.size + 1) (x + d.1) (y + d.2) false]
    have hopp1 := hopp 1 (le_refl 1) hn1
    have hbound : n ≤ b.size := by
      have h1 := hopp1.1
      have h2 := hown.1
      unfold inBounds at h1 h2
      rw [Bool.and_eq_true, Bool.and_eq_true, Bool.and_eq_true] at h1 h2
      simp only [decide_eq_true_eq] at h1 h2
      obtain ⟨⟨⟨h1a, h1b⟩, h1c⟩, h1d⟩ := h1
      obtain ⟨⟨⟨h2a, h2b⟩, h2c⟩, h2d⟩ := h2
      rcases dir_shape d hd with hsh | hsh | hsh | hsh
      · rw [hsh] at h1a h2b; omega
      · rw [hsh] at h1b h2a; omega
      · rw [hsh] at h1c h2d; omega
      · rw [hsh] at h1d h2c; omega
    refine ⟨n, Or.inr hn1, by omega, ?_, ?_⟩
    · intro j hj
      have hbase := hopp (j + 1) (by omega) (by omega)
      have e1 : x + ((j + 1 : Nat) : Int) * d.1 = x + d.1 + (j : Int) * d.1 := by
        push_cast; ring
      have e2 : y + ((j + 1 : Nat) : Int) * d.2 = y + d.2 + (j : Int) * d.2 := by
        push_cast; ring
      rw [e1, e2] at hbase
      exact hbase
    · have e1 : x + ((n : Int) + 1) * d.1 = x + d.1 + (n : Int) * d.1 := by ring
      have e2 : y + ((n : Int) + 1) * d.2 = y + d.2 + (n : Int) * d.2 := by ring
      rw [e1, e2] at hown
      exact hown

/-- C4, witness: the characterisation applied to black's legal opening move
`(1, 0)` on the 4×4 start. -/
theorem isValidMove_iff_legalSpec_witness :
    inBounds b4 1 0 = true ∧
      (isValidMove b4 1 0 1 = Except.ok true ↔ LegalSpec b4 1 0 1) :=
  ⟨by decide, isValidMove_iff_legalSpec b4 1 0 1 (Or.inl rfl) (by decide)⟩

/- ### Minimax at depth one versus greedy -/

/-- Depth 0 is the evaluator base case (spec Scenario 5). -/
lemma minimax_zero (b : ReversiBoard) (cur maxi : Int) :
    minimax b 0 cur maxi = evaluate b maxi := by
  conv_lhs => rw [minimax]
  exact dif_pos (Or.inl rfl)

/-- The best-move scan only depends on the per-move scores. -/
lemma foldl_best_congr (f g : (Int × Int) → Int) :
    ∀ (moves : List (Int × Int)) (acc : Option (Int × Int) × Option Int),
      (∀ m ∈ moves, f m = g m) →
      moves.foldl (fun acc m =>
        if ltScore acc.2 (f m) then (some m, some (f m)) else acc) acc =
      moves.foldl (fun acc m =>
        if ltScore acc.2 (g m) then (some m, some (g m)) else acc) acc := by
  intro moves
  induction moves with
  | nil => intro acc _; rfl
  | cons m t ih =>
    intro acc hall
    simp only [List.foldl_cons]
    rw [hall m (List.mem_cons_self m t)]
    exact ih _ (fun r hr => hall r (List.mem_cons_of_mem m hr))

/-- C7: with `maxDepth = 1`, whenever the evaluator's corner term vanishes on
every successor of a legal move, the minimax choice coincides with the greedy
choice — both reduce to the same left-to-right strict-improvement scan over
raw stone differentials. -/
theorem chooseMinimax_depth1_eq_chooseGreedy (b : ReversiBoard) (p : Int)
    (hne : getValidMoves b p ≠ [])
    (hc : ∀ m ∈ getValidMoves b p, cornerScore (applyB b m.1 m.2 p) p = 0) :
    chooseMinimax b p 1 (getValidMoves b p)
      = chooseGreedy b p (getValidMoves b p) := by
  have hf : ∀ m ∈ getValidMoves b p, minimaxScore b p 1 m = greedyScore b p m := by
    intro m hm
    unfold minimaxScore
    rw [show (1 : Nat) - 1 = 0 from rfl, minimax_zero]
    unfold evaluate
    rw [hc m hm]
    unfold stoneDiff greedyScore
    ring
  unfold chooseMinimax chooseGreedy
  exact congrArg Prod.fst
    (foldl_best_congr (minimaxScore b p 1) (greedyScore b p) (getValidMoves b p)
      ((getValidMoves b p).head?, none) hf)

/-- C7, witness: on the 4×4 start every successor has an empty corner set, and
both strategies pick the first legal move `(1, 0)`. -/
theorem chooseMinimax_depth1_eq_chooseGreedy_witness :
    getValidMoves b4 1 ≠ [] ∧
      (∀ m ∈ getValidMoves b4 1, cornerScore (applyB b4 m.1 m.2 1) 1 = 0) ∧
      chooseMinimax b4 1 1 (getValidMoves b4 1)
        = chooseGreedy b4 1 (getValidMoves b4 1) :=
  ⟨by decide, by decide, chooseMinimax_depth1_eq_chooseGreedy b4 1 (by decide) (by decide)⟩

end Reversi
